import Mathlib

/-!
Verification development for `audi_logger_plot.py`: a shallow embedding of the
acquisition-and-buffering core (frame parsing in `SerialReader.run`, the
latest-value cache, the synthetic demo source `SerialReader._run_demo`, the
per-channel history deques, the CSV log sink driven by the `update` callback,
and the `faultword_to_flags` lookup), together with theorems about it.

Text is modelled at the level of `List Char` (the wire format is ASCII; the
`decode(errors="ignore")` step is the identity on such input).
-/

/-- The fixed channel schema, `FIELDS` in the source. -/
def FIELDS : List String :=
  ["log_index", "engine_rpm", "vehicle_speed", "gear", "torque",
   "oil_coolant_temperature", "EGT_bank1", "EGT_bank2",
   "intake_air_temperature", "oil_press", "fuel_press", "MAP_value",
   "exhaust_press_bank1", "exhaust_press_bank2", "U12V", "U5V", "faultword1"]

/-- `N_FIELDS = len(FIELDS)` in the source. -/
def N_FIELDS : Nat := FIELDS.length

/-- One decoded telemetry sample: the dict `row = dict(zip(FIELDS, values))`
of the source, modelled as a fixed-shape structure with one integer field per
schema channel, in schema order. -/
structure Record where
  log_index : Int
  engine_rpm : Int
  vehicle_speed : Int
  gear : Int
  torque : Int
  oil_coolant_temperature : Int
  EGT_bank1 : Int
  EGT_bank2 : Int
  intake_air_temperature : Int
  oil_press : Int
  fuel_press : Int
  MAP_value : Int
  exhaust_press_bank1 : Int
  exhaust_press_bank2 : Int
  U12V : Int
  U5V : Int
  faultword1 : Int
deriving DecidableEq

/-- Characters stripped by Python's `int(str)` before reading the number
(the ASCII portion of Python's whitespace set; the wire format is ASCII). -/
def isPyWs (c : Char) : Bool :=
  c = ' ' || c = '\t' || c = '\n' || c = '\r' || c = '\x0b' || c = '\x0c'

/-- Leading- and trailing-whitespace stripping performed by Python's `int`. -/
def pyTrim (cs : List Char) : List Char :=
  ((cs.dropWhile isPyWs).reverse.dropWhile isPyWs).reverse

/-- Digit run of Python's integer literal grammar, after the first digit:
an underscore may occur only between two digits.  `acc` is the value of the
digits already consumed. -/
def digitsCore : List Char → Nat → Option Nat
  | [], acc => some acc
  | c :: rest, acc =>
    if c = '_' then
      match rest with
      | [] => none
      | d :: rest2 =>
        if d.isDigit then digitsCore rest2 (acc * 10 + (d.toNat - 48)) else none
    else if c.isDigit then digitsCore rest (acc * 10 + (c.toNat - 48)) else none

/-- A nonempty digit run (first character must be a digit). -/
def pyDigits : List Char → Option Nat
  | [] => none
  | c :: rest => if c.isDigit then digitsCore rest (c.toNat - 48) else none

/-- Python's `int(s)` on text: strip whitespace, optional single sign, then a
digit run with optional single underscores between digits.  `none` models a
raised `ValueError`. -/
def pyIntOfChars (cs : List Char) : Option Int :=
  match pyTrim cs with
  | [] => none
  | c :: rest =>
    if c = '+' then (pyDigits rest).map (fun n => (n : Int))
    else if c = '-' then (pyDigits rest).map (fun n => -(n : Int))
    else (pyDigits (c :: rest)).map (fun n => (n : Int))

/-- Python's `text.split(";")`: splitting on every semicolon, keeping empty
chunks (they are filtered afterwards, as in the source). -/
def splitOn : List Char → List (List Char)
  | [] => [[]]
  | c :: rest =>
    if c = ';' then [] :: splitOn rest
    else
      match splitOn rest with
      | t :: ts => (c :: t) :: ts
      | [] => [[c]]

/-- `if line.endswith(b"\r"): line = line[:-1]` — drop one trailing CR. -/
def stripCR (l : List Char) : List Char :=
  if l.getLast? = some '\r' then l.dropLast else l

/-- `text.rstrip("\n")` — drop every trailing LF. -/
def rstripLF (l : List Char) : List Char :=
  (l.reverse.dropWhile (fun c => c = '\n')).reverse

/-- `[p for p in text.split(";") if p != ""]` — the token list of a line. -/
def splitTokens (t : List Char) : List (List Char) :=
  (splitOn t).filter (fun p => !p.isEmpty)

/-- `values = list(map(int, parts))`, where a single `int` failure poisons the
whole list (the `ValueError` aborts the statement). -/
def intsOf : List (List Char) → Option (List Int)
  | [] => some []
  | p :: ps =>
    match pyIntOfChars p, intsOf ps with
    | some v, some vs => some (v :: vs)
    | _, _ => none

/-- `dict(zip(FIELDS, values))` for a value list of schema length: bind the
17 values to the schema channels by position.  Its only call site has checked
`len(parts) == N_FIELDS`, so the `getD` defaults are unreachable. -/
def recordOfVals (vals : List Int) : Record :=
  { log_index := vals.getD 0 0
    engine_rpm := vals.getD 1 0
    vehicle_speed := vals.getD 2 0
    gear := vals.getD 3 0
    torque := vals.getD 4 0
    oil_coolant_temperature := vals.getD 5 0
    EGT_bank1 := vals.getD 6 0
    EGT_bank2 := vals.getD 7 0
    intake_air_temperature := vals.getD 8 0
    oil_press := vals.getD 9 0
    fuel_press := vals.getD 10 0
    MAP_value := vals.getD 11 0
    exhaust_press_bank1 := vals.getD 12 0
    exhaust_press_bank2 := vals.getD 13 0
    U12V := vals.getD 14 0
    U5V := vals.getD 15 0
    faultword1 := vals.getD 16 0 }

/-- Outcome of one iteration of the line-handling body of `SerialReader.run`
on a stripped text: silently skipped empty text (`if not text: continue`),
wrong field count (warned and skipped), a non-integer field (the `ValueError`
branch, silently skipped), or an accepted record. -/
inductive ParseResult where
  | emptyLine : ParseResult
  | wrongFieldCount (expected actual : Nat) : ParseResult
  | nonIntegerField : ParseResult
  | ok (r : Record) : ParseResult
deriving DecidableEq

/-- The field-count check and integer decoding of `SerialReader.run`, applied
to the already-stripped text of one line. -/
def parseText (t : List Char) : ParseResult :=
  match t with
  | [] => ParseResult.emptyLine
  | _ :: _ =>
    let parts := splitTokens t
    if parts.length = N_FIELDS then
      match intsOf parts with
      | none => ParseResult.nonIntegerField
      | some vals => ParseResult.ok (recordOfVals vals)
    else ParseResult.wrongFieldCount N_FIELDS parts.length

/-- The whole per-line pipeline of `SerialReader.run`: strip one trailing CR,
strip trailing LFs, then validate and decode.  (The leading `if not line:
continue` of the source coincides with the empty-text skip here.) -/
def parseLine (l : List Char) : ParseResult :=
  parseText (rstripLF (stripCR l))

/-- Combined observable state of the pipeline: the latest-value cache slot
(`self.latest_row`), the CSV log sink's data rows (timestamp paired with the
record written by `update`), and the data of the `[warn]` lines printed by
`SerialReader.run` (actual field count paired with the offending text). -/
structure SysState where
  cache : Option Record
  log : List (Nat × Record)
  warns : List (Nat × List Char)
deriving DecidableEq

def sysInit : SysState := { cache := none, log := [], warns := [] }

/-- One iteration of `SerialReader.run` on a received line: an accepted
record overwrites the cache slot; a wrong field count prints a warning and
continues; an empty line or a non-integer field continues silently.  The log
sink is not touched here — the source writes CSV rows in `update`, not in the
reader thread. -/
def readStep (st : SysState) (l : List Char) : SysState :=
  match parseLine l with
  | ParseResult.ok r => { st with cache := some r }
  | ParseResult.wrongFieldCount _ actual =>
      { st with warns := st.warns ++ [(actual, rstripLF (stripCR l))] }
  | ParseResult.nonIntegerField => st
  | ParseResult.emptyLine => st

/-- One tick of the `update` animation callback: `row = reader.get_latest()`;
if a row exists and logging is enabled, append it to the CSV with a timestamp
taken at write time (`dt.datetime.now(...)` inside `update`). -/
def tickStep (logEnabled : Bool) (st : SysState) (ts : Nat) : SysState :=
  match st.cache with
  | none => st
  | some r => if logEnabled then { st with log := st.log ++ [(ts, r)] } else st

/-- An event of the two-thread system: a line becoming available to the
reader thread, or one timer tick of the consumer. -/
inductive Event where
  | recv (l : List Char) : Event
  | tick (ts : Nat) : Event
deriving DecidableEq

def sysStep (logEnabled : Bool) (st : SysState) : Event → SysState
  | Event.recv l => readStep st l
  | Event.tick ts => tickStep logEnabled st ts

def sysRun (logEnabled : Bool) (st : SysState) (evs : List Event) : SysState :=
  evs.foldl (sysStep logEnabled) st

/-- An operation on the cache slot: `put` is the guarded write
`self.latest_row = row`; `get` is `SerialReader.get_latest`. -/
inductive COp where
  | put (r : Record) : COp
  | get : COp
deriving DecidableEq

/-- Run a sequence of cache operations from slot state `s`, collecting the
value returned by each `get` (a copy of the slot, `None` if never written). -/
def cacheRun : Option Record → List COp → Option Record × List (Option Record)
  | s, [] => (s, [])
  | _, COp.put r :: ops => cacheRun (some r) ops
  | s, COp.get :: ops =>
      let rest := cacheRun s ops
      (rest.1, s :: rest.2)

/-- The mutable state of a `SerialReader`: the cache slot and the stop flag. -/
structure RState where
  latestRow : Option Record
  stopFlag : Bool
deriving DecidableEq

/-- An externally visible operation on the reader: a line processed by the
serial loop, a record produced by the demo loop, a `get_latest` call, or
`stop`.  The two loops check `stop_flag` before processing. -/
inductive ROp where
  | recvLine (l : List Char) : ROp
  | putDemo (r : Record) : ROp
  | getL : ROp
  | stop : ROp
deriving DecidableEq

def rApply (s : RState) : ROp → RState
  | ROp.recvLine l =>
      if s.stopFlag then s
      else
        match parseLine l with
        | ParseResult.ok r => { s with latestRow := some r }
        | _ => s
  | ROp.putDemo r => if s.stopFlag then s else { s with latestRow := some r }
  | ROp.getL => s
  | ROp.stop => { s with stopFlag := true }

def rRun (s : RState) (ops : List ROp) : RState := ops.foldl rApply s

/-- `SerialReader.get_latest`: a copy of the slot, or `None` if never set. -/
def getLatest (s : RState) : Option Record := s.latestRow

/-- `deque(maxlen=cap).append(x)`: append on the right and, when the deque is
at capacity, discard from the left so the length never exceeds `cap`.  For
any reachable length (`≤ cap`) the single formula below drops exactly the
overflow. -/
def dequeAppend (cap : Nat) (buf : List Int) (x : Int) : List Int :=
  (buf ++ [x]).drop (buf.length + 1 - cap)

/-- The `--max-points` argparse default. -/
def defaultMaxPoints : Nat := 1200

/-- The bit-to-label table of `faultword_to_flags` (a Python dict iterated in
insertion order). -/
def faultMapping : List (Nat × String) :=
  [(0, "SENSOR_ERR"), (1, "OVERBOOST"), (2, "LOW_OIL"), (3, "HIGH_EGT"),
   (4, "LOW_FUEL_PRESS"), (5, "LOW_U12V"), (6, "LOW_U5V"), (7, "MAP_IMPLAUS")]

/-- `faultword_to_flags(fw)`: append `name` for every `(bit, name)` of the
table with `fw & (1 << bit)` nonzero. -/
def faultword_to_flags (fw : Nat) : List String :=
  faultMapping.foldl
    (fun flags bn => if fw &&& (1 <<< bn.1) ≠ 0 then flags ++ [bn.2] else flags) []

/-- Modelled from the spec: the label the table assigns to a bit position. -/
def labelOf : Nat → String
  | 0 => "SENSOR_ERR"
  | 1 => "OVERBOOST"
  | 2 => "LOW_OIL"
  | 3 => "HIGH_EGT"
  | 4 => "LOW_FUEL_PRESS"
  | 5 => "LOW_U12V"
  | 6 => "LOW_U5V"
  | 7 => "MAP_IMPLAUS"
  | _ => ""

/-- Modelled from the spec: the labels of the set bits among positions 0..7,
in ascending bit order. -/
def setBitLabels (fw : Nat) : List String :=
  ((List.range 8).filter (fun b => fw.testBit b)).map labelOf

/-- Python `int()` truncation (toward zero) of an exact rational. -/
def pyTrunc (q : ℚ) : Int := if q < 0 then -(Int.floor (-q)) else Int.floor q

/-- Python `x % 1` for a nonnegative modulus: the fractional part. -/
def pyMod1 (q : ℚ) : ℚ := q - Int.floor q

/-- The state carried across iterations of `SerialReader._run_demo`: the loop
counter `i` plus the simulated quantities that feed back into the next
iteration (all others are recomputed each round).  Python floats are modelled
as exact rationals; this is bit-inexact for constants such as `0.2`, but the
`log_index` bookkeeping below involves only exact integer arithmetic. -/
structure DemoState where
  i : Nat
  rpm : ℚ
  speed : ℚ
  gear : ℚ
  torque : ℚ
  oil_coolant_temperature : ℚ
  lastShift : ℚ

/-- The initial assignments before the demo loop; `t0` models the initial
`last_shift = time.time()`. -/
def demoInit (t0 : ℚ) : DemoState :=
  { i := 0, rpm := 800, speed := 0, gear := 1, torque := 50,
    oil_coolant_temperature := 70, lastShift := t0 }

/-- One iteration of the `_run_demo` loop.  `tNow`, `tA`, `tB` are the values
returned by the three `time.time()` calls of the iteration (the gear-shift
clock and the two voltage wiggles). -/
def demoStep (s : DemoState) (tNow tA tB : ℚ) : DemoState × Record :=
  let i := s.i + 1
  let rpm := max 700 (min 6500 (s.rpm + (if s.speed < 80 then 50 else -30)))
  let speed := max 0 (min 220 (s.speed + (if rpm > 1200 then (1 : ℚ)/2 else -((1 : ℚ)/5))))
  let doShift := tNow - s.lastShift > 5 ∧ speed > 20
  let gear := if doShift then min 8 (s.gear + 1) else s.gear
  let lastShift := if doShift then tNow else s.lastShift
  let torque := max 0 (min 450 (s.torque + (if rpm < 3000 then 5 else -7)))
  let octemp := min 110 (s.oil_coolant_temperature + 1/50)
  let iat := 20 + (rpm / 10000) * 30
  let egt1 := 300 + (rpm / 6500) * 700
  let egt2 := egt1 - 10
  let oilp := 3/2 + (rpm / 6500) * 4
  let fuelp : Int := 2500 + pyTrunc ((rpm / 6500) * 1500)
  let mapval : Int := 1000 + pyTrunc ((rpm / 6500) * 1500)
  let ep1 : Int := 80 + pyTrunc ((rpm / 6500) * 120)
  let ep2 : Int := ep1 - 5
  let u12 : Int := 13800 + pyTrunc (100 * ((1 : ℚ)/2 - pyMod1 tA))
  let u5 : Int := 5020 + pyTrunc (10 * ((1 : ℚ)/2 - pyMod1 tB))
  ({ i := i, rpm := rpm, speed := speed, gear := gear, torque := torque,
     oil_coolant_temperature := octemp, lastShift := lastShift },
   { log_index := (i : Int), engine_rpm := pyTrunc rpm,
     vehicle_speed := pyTrunc speed, gear := pyTrunc gear,
     torque := pyTrunc torque, oil_coolant_temperature := pyTrunc octemp,
     EGT_bank1 := pyTrunc egt1, EGT_bank2 := pyTrunc egt2,
     intake_air_temperature := pyTrunc iat, oil_press := pyTrunc (oilp * 100),
     fuel_press := fuelp, MAP_value := mapval, exhaust_press_bank1 := ep1,
     exhaust_press_bank2 := ep2, U12V := u12, U5V := u5, faultword1 := 0 })

/-- The demo state after `n` iterations, for a given stream of
`time.time()` readings. -/
def demoStates (t0 : ℚ) (times : Nat → ℚ × ℚ × ℚ) : Nat → DemoState
  | 0 => demoInit t0
  | n + 1 =>
    let t := times n
    (demoStep (demoStates t0 times n) t.1 t.2.1 t.2.2).1

/-- The record emitted by call `n + 1` of the synthetic source (0-indexed
`n`). -/
def demoRecord (t0 : ℚ) (times : Nat → ℚ × ℚ × ℚ) (n : Nat) : Record :=
  let t := times n
  (demoStep (demoStates t0 times n) t.1 t.2.1 t.2.2).2

/-- Modelled from the spec: the decimal digit character for `d < 10`. -/
def digitChar (d : Nat) : Char := Char.ofNat (48 + d)

/-- Modelled from the spec: decimal digit list of a natural number; `fuel`
bounds the recursion depth so the definition is structural. -/
def natDigitsAux : Nat → Nat → List Char
  | 0, _ => []
  | fuel + 1, n =>
    if n < 10 then [digitChar n]
    else natDigitsAux fuel (n / 10) ++ [digitChar (n % 10)]

/-- Modelled from the spec: decimal digits of a natural number. -/
def natDigits (n : Nat) : List Char := natDigitsAux (n + 1) n

/-- Modelled from the spec: the decimal representation of a signed integer
(`str(v)` in Python).  The source has no serializer; this definition follows
the round-trip property's words. -/
def decRepr (v : Int) : List Char :=
  if v < 0 then '-' :: natDigits (-v).toNat else natDigits v.toNat

/-- Modelled from the spec: join chunks with the semicolon delimiter. -/
def joinSemis : List (List Char) → List Char
  | [] => []
  | [p] => p
  | p :: ps => p ++ ';' :: joinSemis ps

/-- Modelled from the spec: serialize a value tuple as one wire line —
decimal representations joined by the delimiter, plus the line terminator. -/
def serializeVals (vs : List Int) : List Char :=
  joinSemis (vs.map decRepr) ++ ['\n']

/-- First valid line of the spec's end-to-end scenario. -/
def scnLine1 : List Char :=
  "1;800;0;1;50;70;350;340;20;200;3000;1000;100;95;13800;5020;0\n".data

/-- The malformed middle line of the scenario: 16 fields instead of 17. -/
def scnLineBad : List Char :=
  "1;800;0;1;50;70;350;340;20;200;3000;1000;100;95;13800;5020\n".data

/-- Second valid line of the spec's end-to-end scenario. -/
def scnLine2 : List Char :=
  "2;850;1;1;55;70;360;350;20;205;3050;1010;101;96;13790;5015;0\n".data

/-- The record encoded by `scnLine1`. -/
def scnRec1 : Record :=
  ⟨1, 800, 0, 1, 50, 70, 350, 340, 20, 200, 3000, 1000, 100, 95, 13800, 5020, 0⟩

/-- The record encoded by `scnLine2`. -/
def scnRec2 : Record :=
  ⟨2, 850, 1, 1, 55, 70, 360, 350, 20, 205, 3050, 1010, 101, 96, 13790, 5015, 0⟩

/-- Value of a digit run read most-significant first, starting from `acc`
(the accumulator shape of Python's integer scanner). -/
def digitsVal (cs : List Char) (acc : Nat) : Nat :=
  cs.foldl (fun a c => a * 10 + (c.toNat - 48)) acc

/-- An all-zero record, used as concrete witness data. -/
def recZero : Record := ⟨0, 0, 0, 0, 0, 0, 0, 0, 0, 0, 0, 0, 0, 0, 0, 0, 0⟩

/-- An all-one record, used as concrete witness data. -/
def recOne : Record := ⟨1, 1, 1, 1, 1, 1, 1, 1, 1, 1, 1, 1, 1, 1, 1, 1, 1⟩

/-! ## Sanity checks of the embedding on concrete inputs -/

example : parseLine ("1;2;3;4;5;6;7;8;9;10;11;12;13;14;15;16;17\n".data) =
    ParseResult.ok ⟨1,2,3,4,5,6,7,8,9,10,11,12,13,14,15,16,17⟩ := by decide

example : parseLine ("1;2;3\n".data) = ParseResult.wrongFieldCount 17 3 := by decide

example : parseLine ("1;2;3;4;5;6;7;8;9;10;11;12;13;abc;15;16;17\n".data) =
    ParseResult.nonIntegerField := by decide

example : parseLine ("\n".data) = ParseResult.emptyLine := by decide

example : parseLine ("\r\n".data) = ParseResult.wrongFieldCount 17 1 := by decide

example : pyIntOfChars " -1_2 ".data = some (-12) := by decide

example : pyIntOfChars "12\r".data = some 12 := by decide

example : pyIntOfChars "1__2".data = none := by decide

example : faultword_to_flags 5 = ["SENSOR_ERR", "LOW_OIL"] := by decide

example : faultword_to_flags 256 = [] := by decide

example : serializeVals [1, -2, 30] = "1;-2;30\n".data := by decide

/-! ## Latest-value cache (C2) -/

theorem cacheRun_gets_replicate : ∀ (ops : List COp), (∀ op ∈ ops, op = COp.get) →
    ∀ t : Option Record, cacheRun t ops = (t, List.replicate ops.length t) := by
  intro ops
  induction ops with
  | nil => intro _ t; simp [cacheRun]
  | cons op rest ih =>
    intro h t
    have hop : op = COp.get := h op (by simp)
    subst hop
    have hrest := ih (fun o ho => h o (by simp [ho]))
    simp [cacheRun, hrest t, List.replicate_succ]

/-- C2: the cache is latest-wins and non-consuming — after `put(A)` then
`put(B)`, any sequence of `get()` calls with no intervening `put()` returns
`B` every time, never `A` (when `A ≠ B`); a `get` does not clear the slot. -/
theorem cache_latest_wins (s : Option Record) (A B : Record) (ops : List COp)
    (hops : ∀ op ∈ ops, op = COp.get) (o : Option Record)
    (ho : o ∈ (cacheRun s (COp.put A :: COp.put B :: ops)).2) :
    o = some B ∧ (A ≠ B → o ≠ some A) := by
  have h2 : cacheRun s (COp.put A :: COp.put B :: ops) = cacheRun (some B) ops := by
    simp [cacheRun]
  rw [h2, cacheRun_gets_replicate ops hops (some B)] at ho
  have hoB : o = some B := List.eq_of_mem_replicate ho
  refine ⟨hoB, fun hne hoA => ?_⟩
  rw [hoB] at hoA
  exact hne (Option.some.inj hoA).symm

theorem cache_latest_wins_witness :
    (cacheRun none [COp.put recZero, COp.put recOne, COp.get, COp.get]).2
        = [some recOne, some recOne] ∧
    some recOne ≠ some recZero := by
  refine ⟨by decide, ?_⟩
  exact (cache_latest_wins none recZero recOne [COp.get, COp.get] (by decide)
      (some recOne) (by decide)).2 (by decide)

/-! ## Reader slot persistence (C9) -/

theorem rApply_isSome (s : RState) (op : ROp) (h : s.latestRow.isSome = true) :
    ((rApply s op).latestRow).isSome = true := by
  cases op with
  | recvLine l =>
    by_cases hs : s.stopFlag
    · simpa [rApply, hs] using h
    · cases hp : parseLine l <;> simp [rApply, hs, hp, h]
  | putDemo r => by_cases hs : s.stopFlag <;> simp [rApply, hs, h]
  | getL => simpa [rApply] using h
  | stop => simpa [rApply] using h

/-- C9: once the cache slot holds a record (a `get_latest` has returned one),
no later operation — lines, demo puts, reads, `stop()` — ever resets it to
`None`; every later `get_latest` still returns a record. -/
theorem cache_slot_never_reverts (s : RState) (ops : List ROp)
    (h : (getLatest s).isSome = true) :
    (getLatest (rRun s ops)).isSome = true := by
  induction ops generalizing s with
  | nil => simpa [rRun] using h
  | cons op rest ih =>
    have hstep := rApply_isSome s op (by simpa [getLatest] using h)
    simpa [rRun, List.foldl_cons] using ih (rApply s op) (by simpa [getLatest] using hstep)

theorem cache_slot_never_reverts_witness :
    (getLatest (rRun { latestRow := some recZero, stopFlag := false }
      [ROp.stop, ROp.getL, ROp.recvLine ['\n'], ROp.putDemo recOne])).isSome = true :=
  cache_slot_never_reverts _ _ (by decide)

/-! ## History ring buffers (C8) -/

theorem dequeRun_eq (cap : Nat) : ∀ (xs buf : List Int), buf.length ≤ cap →
    xs.foldl (dequeAppend cap) buf = (buf ++ xs).drop (buf.length + xs.length - cap) := by
  intro xs
  induction xs with
  | nil =>
    intro buf h
    simp [Nat.sub_eq_zero_of_le h]
  | cons x xs ih =>
    intro buf h
    rw [List.foldl_cons]
    rcases Nat.lt_or_ge buf.length cap with hlt | hge
    · have h1 : dequeAppend cap buf x = buf ++ [x] := by
        unfold dequeAppend
        rw [Nat.sub_eq_zero_of_le (by omega), List.drop_zero]
      rw [h1, ih (buf ++ [x]) (by simp; omega)]
      have h2 : (buf ++ [x]).length + xs.length - cap
          = buf.length + (x :: xs).length - cap := by simp; omega
      rw [h2, List.append_assoc]
      rfl
    · have hbl : buf.length = cap := le_antisymm h hge
      have h1 : dequeAppend cap buf x = (buf ++ [x]).drop 1 := by
        unfold dequeAppend
        congr 1
        omega
      have hlen1 : ((buf ++ [x]).drop 1).length = cap := by simp [hbl]
      rw [h1, ih _ (le_of_eq hlen1), hlen1]
      have hdr : (buf ++ [x]).drop 1 ++ xs = (buf ++ [x] ++ xs).drop 1 :=
        (List.drop_append_of_le_length (by simp)).symm
      rw [hdr, List.drop_drop, List.append_assoc]
      have h3 : 1 + (cap + xs.length - cap) = buf.length + (x :: xs).length - cap := by
        simp [hbl]; omega
      rw [h3]
      rfl

/-- C8: a history deque of capacity `cap` never exceeds that length, and
appending `cap + 1` elements to an empty one retains exactly elements
`2..cap+1` in arrival order (FIFO eviction); the capacity default is 1200. -/
theorem ring_buffer_eviction (cap : Nat) (xs : List Int) (h : xs.length = cap + 1) :
    xs.foldl (dequeAppend cap) [] = xs.drop 1 ∧
    (xs.foldl (dequeAppend cap) []).length = cap ∧
    (∀ ys : List Int, (ys.foldl (dequeAppend cap) []).length ≤ cap) ∧
    defaultMaxPoints = 1200 := by
  have hrun := dequeRun_eq cap xs [] (by simp)
  simp only [List.nil_append, List.length_nil, Nat.zero_add] at hrun
  refine ⟨?_, ?_, ?_, rfl⟩
  · rw [hrun]
    congr 1
    omega
  · rw [hrun]
    simp [h]
  · intro ys
    have hys := dequeRun_eq cap ys [] (by simp)
    simp only [List.nil_append, List.length_nil, Nat.zero_add] at hys
    rw [hys]
    simp
    omega

theorem ring_buffer_eviction_witness :
    [5, 6, 7].foldl (dequeAppend 2) [] = [6, 7] := by
  simpa using (ring_buffer_eviction 2 [5, 6, 7] (by decide)).1

/-! ## Fault word decoding (C10) -/

theorem land_shift_testBit (fw b : Nat) : (fw &&& (1 <<< b) ≠ 0) ↔ fw.testBit b = true := by
  rw [Nat.shiftLeft_eq, one_mul, Nat.and_two_pow]
  cases h : fw.testBit b <;> simp [h]

theorem flags_foldl_filterMap (p : Nat → Prop) [DecidablePred p] :
    ∀ (l : List (Nat × String)) (acc : List String),
      l.foldl (fun fl bn => if p bn.1 then fl ++ [bn.2] else fl) acc
        = acc ++ l.filterMap (fun bn => if p bn.1 then some bn.2 else none) := by
  intro l
  induction l with
  | nil => intro acc; simp
  | cons bn rest ih =>
    intro acc
    by_cases h : p bn.1 <;> simp [h, List.foldl_cons, List.filterMap_cons, ih]

theorem filter_map_eq_filterMap (pb : Nat → Bool) (f : Nat → String) :
    ∀ l : List Nat, (l.filter pb).map f
      = l.filterMap (fun a => if pb a then some (f a) else none) := by
  intro l
  induction l with
  | nil => simp
  | cons a rest ih => by_cases h : pb a <;> simp [h, ih]

/-- C10: `faultword_to_flags` inspects only bit positions 0..7 — for any
nonnegative bitmask it returns exactly the labels of the set bits among
positions 0..7 in ascending bit order, and a mask whose set bits all lie at
position 8 or higher yields the empty list. -/
theorem fault_flags_are_low_bits (fw : Nat) :
    faultword_to_flags fw = setBitLabels fw ∧
    ((∀ b, b < 8 → fw.testBit b = false) → faultword_to_flags fw = []) := by
  have hmap : faultMapping = (List.range 8).map (fun b => (b, labelOf b)) := by decide
  have hmain : faultword_to_flags fw = setBitLabels fw := by
    unfold faultword_to_flags setBitLabels
    rw [flags_foldl_filterMap (fun b => fw &&& (1 <<< b) ≠ 0), List.nil_append, hmap,
        List.filterMap_map, filter_map_eq_filterMap]
    apply List.filterMap_congr
    intro b _
    by_cases hb : fw.testBit b
    · simp [Function.comp, hb, (land_shift_testBit fw b).mpr hb]
    · have hz : ¬ (fw &&& (1 <<< b) ≠ 0) := fun hc => hb ((land_shift_testBit fw b).mp hc)
      simp [Function.comp, hb, hz]
  refine ⟨hmain, fun hlow => ?_⟩
  rw [hmain]
  unfold setBitLabels
  have hfil : (List.range 8).filter (fun b => fw.testBit b) = [] :=
    List.filter_eq_nil_iff.mpr (fun b hb => by simp [hlow b (List.mem_range.mp hb)])
  rw [hfil]
  rfl

theorem fault_flags_are_low_bits_witness : faultword_to_flags 256 = [] :=
  (fault_flags_are_low_bits 256).2 (by decide)

/-! ## Frame validation (C3, C4) -/

theorem parseText_cons_count_ne (c : Char) (rest : List Char)
    (hc : (splitTokens (c :: rest)).length ≠ N_FIELDS) :
    parseText (c :: rest)
      = ParseResult.wrongFieldCount N_FIELDS (splitTokens (c :: rest)).length := by
  simp only [parseText]
  rw [if_neg hc]

theorem parseText_cons_none (c : Char) (rest : List Char)
    (hc : (splitTokens (c :: rest)).length = N_FIELDS)
    (hn : intsOf (splitTokens (c :: rest)) = none) :
    parseText (c :: rest) = ParseResult.nonIntegerField := by
  simp only [parseText]
  rw [if_pos hc, hn]

theorem parseText_cons_some (c : Char) (rest : List Char) (vals : List Int)
    (hc : (splitTokens (c :: rest)).length = N_FIELDS)
    (hs : intsOf (splitTokens (c :: rest)) = some vals) :
    parseText (c :: rest) = ParseResult.ok (recordOfVals vals) := by
  simp only [parseText]
  rw [if_pos hc, hs]

theorem parseText_ok_count {t : List Char} {r : Record}
    (h : parseText t = ParseResult.ok r) : (splitTokens t).length = N_FIELDS := by
  cases t with
  | nil => simp [parseText] at h
  | cons c rest =>
    by_cases hc : (splitTokens (c :: rest)).length = N_FIELDS
    · exact hc
    · rw [parseText_cons_count_ne c rest hc] at h
      exact absurd h (by simp)

/-- C3 (amended): for every line whose stripped text is nonempty and whose
token count differs from 17, parse returns `WrongFieldCount` and the loop
logs a warning and keeps the cache unchanged; parse succeeds only with
exactly 17 tokens.  (Lines that are empty after stripping are skipped
silently instead — see the counterexample.) -/
theorem wrong_field_count_rejected (l : List Char) (st : SysState) :
    (rstripLF (stripCR l) ≠ [] →
      (splitTokens (rstripLF (stripCR l))).length ≠ N_FIELDS →
      parseLine l = ParseResult.wrongFieldCount N_FIELDS
          (splitTokens (rstripLF (stripCR l))).length ∧
      readStep st l = { st with warns := st.warns ++
          [((splitTokens (rstripLF (stripCR l))).length, rstripLF (stripCR l))] }) ∧
    (∀ r : Record, parseLine l = ParseResult.ok r →
      (splitTokens (rstripLF (stripCR l))).length = N_FIELDS) := by
  constructor
  · intro hne hc
    have hp : parseLine l = ParseResult.wrongFieldCount N_FIELDS
        (splitTokens (rstripLF (stripCR l))).length := by
      unfold parseLine
      cases ht : rstripLF (stripCR l) with
      | nil => exact absurd ht hne
      | cons c rest =>
        rw [ht] at hc
        exact parseText_cons_count_ne c rest hc
    refine ⟨hp, ?_⟩
    unfold readStep
    rw [hp]
  · intro r hr
    unfold parseLine at hr
    exact parseText_ok_count hr

theorem wrong_field_count_rejected_witness :
    parseLine "1;2;3\n".data = ParseResult.wrongFieldCount N_FIELDS
        (splitTokens (rstripLF (stripCR "1;2;3\n".data))).length ∧
    readStep sysInit "1;2;3\n".data = { sysInit with warns := sysInit.warns ++
        [((splitTokens (rstripLF (stripCR "1;2;3\n".data))).length,
          rstripLF (stripCR "1;2;3\n".data))] } :=
  (wrong_field_count_rejected "1;2;3\n".data sysInit).1 (by decide) (by decide)

/-- C3 counterexample: the line consisting of a bare terminator has token
count 0 ≠ 17, yet parse does not return `WrongFieldCount` — the line is
skipped silently by the empty-text check, and nothing is logged. -/
theorem wrong_field_count_empty_counterexample :
    parseLine "\n".data = ParseResult.emptyLine ∧
    ParseResult.emptyLine ≠ ParseResult.wrongFieldCount 17
        (splitTokens (rstripLF (stripCR "\n".data))).length ∧
    (splitTokens (rstripLF (stripCR "\n".data))).length ≠ 17 ∧
    (readStep sysInit "\n".data).warns = [] := by decide

theorem intsOf_none_of_mem : ∀ {ps : List (List Char)} {p : List Char},
    p ∈ ps → pyIntOfChars p = none → intsOf ps = none := by
  intro ps
  induction ps with
  | nil => intro p hp; simp at hp
  | cons q rest ih =>
    intro p hp hnone
    rcases List.mem_cons.mp hp with h | h
    · subst h
      simp [intsOf, hnone]
    · have hr := ih h hnone
      cases hq : pyIntOfChars q <;> simp [intsOf, hq, hr]

/-- C4 (amended): a line with exactly 17 tokens of which one fails integer
parsing is rejected whole as `NonIntegerField` and the loop continues
silently — no record is constructed, the cache slot and the warning log are
both left unchanged (the `ValueError` branch does not print). -/
theorem non_integer_field_rejected (l : List Char) (st : SysState) (p : List Char)
    (hc : (splitTokens (rstripLF (stripCR l))).length = N_FIELDS)
    (hp : p ∈ splitTokens (rstripLF (stripCR l)))
    (hbad : pyIntOfChars p = none) :
    parseLine l = ParseResult.nonIntegerField ∧ readStep st l = st := by
  have hnone : intsOf (splitTokens (rstripLF (stripCR l))) = none :=
    intsOf_none_of_mem hp hbad
  have hparse : parseLine l = ParseResult.nonIntegerField := by
    unfold parseLine
    cases ht : rstripLF (stripCR l) with
    | nil =>
      rw [ht] at hc
      exact absurd hc (by decide)
    | cons c rest =>
      rw [ht] at hc hnone
      exact parseText_cons_none c rest hc hnone
  refine ⟨hparse, ?_⟩
  unfold readStep
  rw [hparse]

theorem non_integer_field_rejected_witness :
    parseLine "abc;2;3;4;5;6;7;8;9;10;11;12;13;14;15;16;17\n".data
        = ParseResult.nonIntegerField ∧
    readStep sysInit "abc;2;3;4;5;6;7;8;9;10;11;12;13;14;15;16;17\n".data = sysInit :=
  non_integer_field_rejected _ sysInit "abc".data (by decide) (by decide) (by decide)

/-- C4 counterexample: a 17-token line with one non-integer token is indeed
rejected whole with the cache untouched, but nothing is logged — the claim's
"logged reason" does not happen (the field-count branch warns, the
`ValueError` branch is silent). -/
theorem non_integer_silent_counterexample :
    parseLine "1;2;3;4;5;6;7;8;9;10;11;12;13;xyz;15;16;17\n".data
        = ParseResult.nonIntegerField ∧
    readStep sysInit "1;2;3;4;5;6;7;8;9;10;11;12;13;xyz;15;16;17\n".data = sysInit ∧
    (readStep sysInit "1;2;3;4;5;6;7;8;9;10;11;12;13;xyz;15;16;17\n".data).warns
        = [] := by decide

/-! ## Terminator stripping (C6) -/

theorem stripCR_concat_cr (p : List Char) : stripCR (p ++ ['\r']) = p := by
  unfold stripCR
  rw [if_pos (by rw [List.getLast?_concat]), List.dropLast_concat]

theorem stripCR_of_last_ne (l : List Char) (h : l.getLast? ≠ some '\r') :
    stripCR l = l := by
  unfold stripCR
  rw [if_neg h]

theorem rstripLF_concat_lf (p : List Char) : rstripLF (p ++ ['\n']) = rstripLF p := by
  simp [rstripLF, List.reverse_append, List.dropWhile_cons]

/-- C6 (amended): the pipeline normalizes an LF terminator and an LF followed
by a stray CR — for every payload, parse(payload ⧺ LF ⧺ CR) =
parse(payload ⧺ LF), and when the payload does not itself end in CR,
parse(payload ⧺ LF) = parse(payload).  A CR-LF terminator (CR before LF) is
not normalized: the CR survives into the last token (see the
counterexample). -/
theorem terminator_stripping (p : List Char) :
    parseLine (p ++ ['\n', '\r']) = parseLine (p ++ ['\n']) ∧
    (p.getLast? ≠ some '\r' → parseLine (p ++ ['\n']) = parseLine p) := by
  have h2 : stripCR (p ++ ['\n']) = p ++ ['\n'] := by
    apply stripCR_of_last_ne
    rw [List.getLast?_concat]
    simp
  constructor
  · unfold parseLine
    have h1 : stripCR (p ++ ['\n', '\r']) = p ++ ['\n'] := by
      have hsplit : p ++ ['\n', '\r'] = (p ++ ['\n']) ++ ['\r'] := by simp
      rw [hsplit, stripCR_concat_cr]
    rw [h1, h2]
  · intro hp
    unfold parseLine
    rw [h2, rstripLF_concat_lf, stripCR_of_last_ne p hp]

theorem terminator_stripping_witness :
    parseLine ("1;2;3".data ++ ['\n', '\r']) = parseLine ("1;2;3".data ++ ['\n']) ∧
    parseLine ("1;2;3".data ++ ['\n']) = parseLine "1;2;3".data :=
  ⟨(terminator_stripping "1;2;3".data).1,
   (terminator_stripping "1;2;3".data).2 (by decide)⟩

/-- C6 counterexample: for the empty payload, the CRLF-terminated line does
not parse like the bare payload (the CR is not stripped when it precedes the
LF, leaving a 1-token line), and for the payload "\r" the LF-terminated line
differs too (bare "\r" strips to empty, "\r\n" does not). -/
theorem terminator_crlf_counterexample :
    parseLine (([] : List Char) ++ ['\r', '\n']) ≠ parseLine ([] : List Char) ∧
    parseLine ("\r".data ++ ['\n']) ≠ parseLine "\r".data := by decide

/-! ## Acquisition loop and log sink (C1) -/

/-- C1 counterexample: with logging enabled, one accepted record followed by
two consumer ticks yields two identical data rows — the record is appended
twice, not exactly once, because the source writes CSV rows from the cache on
every `update` tick rather than at acceptance time in the acquisition loop. -/
theorem log_sink_duplicate_counterexample :
    sysRun true sysInit [Event.recv scnLine1, Event.tick 3, Event.tick 4]
      = { cache := some scnRec1, log := [(3, scnRec1), (4, scnRec1)],
          warns := [] } := by decide

/-- C1 (amended): each `update` tick with a nonempty cache appends the cached
record to the log sink with the wall-clock timestamp captured at that append;
under the schedule with exactly one tick after each accepted record, the
end-to-end scenario (valid line, 16-field line, valid line) ends with exactly
2 data rows carrying the two accepted records and their append-time
timestamps, one field-count warning, and the second record in the cache. -/
theorem log_sink_scenario (t1 t2 : Nat) :
    sysRun true sysInit
      [Event.recv scnLine1, Event.tick t1, Event.recv scnLineBad,
       Event.recv scnLine2, Event.tick t2]
      = { cache := some scnRec2, log := [(t1, scnRec1), (t2, scnRec2)],
          warns := [(16, "1;800;0;1;50;70;350;340;20;200;3000;1000;100;95;13800;5020".data)] } := by
  rfl

/-! ## Synthetic source (C7) -/

theorem demoStates_i (t0 : ℚ) (times : Nat → ℚ × ℚ × ℚ) :
    ∀ n, (demoStates t0 times n).i = n := by
  intro n
  induction n with
  | zero => rfl
  | succ n ih => simp [demoStates, demoStep, ih]

/-- C7: the synthetic source emits `log_index` values that start at 1 and
strictly increase by exactly 1 per call, with no gaps, for every stream of
clock readings; the step function is total, so no call can fail. -/
theorem synthetic_source_log_index (t0 : ℚ) (times : Nat → ℚ × ℚ × ℚ) (n : Nat) :
    (demoRecord t0 times n).log_index = (n : Int) + 1 ∧
    (demoRecord t0 times (n + 1)).log_index = (demoRecord t0 times n).log_index + 1 := by
  have hrec : ∀ m, (demoRecord t0 times m).log_index = (m : Int) + 1 := by
    intro m
    simp [demoRecord, demoStep, demoStates_i t0 times m]
  refine ⟨hrec n, ?_⟩
  rw [hrec n, hrec (n + 1)]
  push_cast
  ring

/-! ## Round trip (C5): characters and digit runs -/

theorem digitChar_isDigit {d : Nat} (h : d < 10) : (digitChar d).isDigit = true := by
  interval_cases d <;> decide

theorem digitChar_toNat {d : Nat} (h : d < 10) : (digitChar d).toNat = 48 + d := by
  interval_cases d <;> decide

theorem ne_underscore_of_isDigit {c : Char} (h : c.isDigit = true) : ¬ (c = '_') := by
  intro he
  subst he
  exact absurd h (by decide)

theorem not_ws_of_isDigit {c : Char} (h : c.isDigit = true) : isPyWs c = false := by
  cases hw : isPyWs c
  · rfl
  · exfalso
    simp [isPyWs] at hw
    rcases hw with ((((h1 | h1) | h1) | h1) | h1) | h1 <;> subst h1 <;>
      exact absurd h (by decide)

theorem natDigitsAux_all_digits : ∀ (fuel n : Nat), ∀ c ∈ natDigitsAux fuel n,
    c.isDigit = true := by
  intro fuel
  induction fuel with
  | zero => intro n c hc; simp [natDigitsAux] at hc
  | succ fuel ih =>
    intro n c hc
    by_cases h10 : n < 10
    · simp [natDigitsAux, h10] at hc
      subst hc
      exact digitChar_isDigit h10
    · simp [natDigitsAux, h10] at hc
      rcases hc with hc | hc
      · exact ih _ c hc
      · subst hc
        exact digitChar_isDigit (Nat.mod_lt _ (by norm_num))

theorem natDigits_all_digits (n : Nat) : ∀ c ∈ natDigits n, c.isDigit = true :=
  natDigitsAux_all_digits (n + 1) n

theorem natDigits_ne_nil (n : Nat) : natDigits n ≠ [] := by
  unfold natDigits natDigitsAux
  by_cases h10 : n < 10 <;> simp [h10]

theorem digitsVal_append (l : List Char) (x : Char) (acc : Nat) :
    digitsVal (l ++ [x]) acc = digitsVal l acc * 10 + (x.toNat - 48) := by
  simp [digitsVal, List.foldl_append]

theorem lt_ten_pow_succ (n : Nat) : n < 10 ^ (n + 1) :=
  calc n < 2 ^ n := Nat.lt_two_pow n
  _ ≤ 10 ^ n := Nat.pow_le_pow_left (by norm_num) n
  _ ≤ 10 ^ (n + 1) := Nat.pow_le_pow_right (by norm_num) (by omega)

theorem digitsVal_natDigitsAux : ∀ (fuel n : Nat), n < 10 ^ fuel →
    digitsVal (natDigitsAux fuel n) 0 = n := by
  intro fuel
  induction fuel with
  | zero =>
    intro n h
    have hn : n = 0 := by simpa using h
    subst hn
    rfl
  | succ fuel ih =>
    intro n h
    by_cases h10 : n < 10
    · simp [natDigitsAux, h10, digitsVal, digitChar_toNat h10]
    · simp only [natDigitsAux, if_neg h10]
      have hdiv : n / 10 < 10 ^ fuel := by
        rw [Nat.div_lt_iff_lt_mul (by norm_num)]
        calc n < 10 ^ (fuel + 1) := h
        _ = 10 ^ fuel * 10 := by ring
      have hmod : n % 10 < 10 := Nat.mod_lt _ (by norm_num)
      rw [digitsVal_append, ih _ hdiv, digitChar_toNat hmod]
      omega

theorem digitsVal_natDigits (n : Nat) : digitsVal (natDigits n) 0 = n :=
  digitsVal_natDigitsAux (n + 1) n (lt_ten_pow_succ n)

theorem digitsCore_all_digits : ∀ (cs : List Char), (∀ c ∈ cs, c.isDigit = true) →
    ∀ acc, digitsCore cs acc = some (digitsVal cs acc) := by
  intro cs
  induction cs with
  | nil => intro _ acc; simp [digitsCore, digitsVal]
  | cons c rest ih =>
    intro h acc
    have hc : c.isDigit = true := h c (by simp)
    rw [digitsCore.eq_def]
    simp only [if_neg (ne_underscore_of_isDigit hc), if_pos hc]
    rw [ih (fun d hd => h d (by simp [hd])) _]
    simp [digitsVal]

theorem pyDigits_all_digits (cs : List Char) (hne : cs ≠ [])
    (h : ∀ c ∈ cs, c.isDigit = true) : pyDigits cs = some (digitsVal cs 0) := by
  cases cs with
  | nil => exact absurd rfl hne
  | cons c rest =>
    have hc := h c (by simp)
    simp only [pyDigits, if_pos hc]
    rw [digitsCore_all_digits rest (fun d hd => h d (by simp [hd])) _]
    simp [digitsVal]

theorem dropWhile_no_ws {l : List Char} (h : ∀ c ∈ l, isPyWs c = false) :
    l.dropWhile isPyWs = l := by
  cases l with
  | nil => rfl
  | cons c rest => simp [List.dropWhile_cons, h c (by simp)]

theorem pyTrim_no_ws {l : List Char} (h : ∀ c ∈ l, isPyWs c = false) : pyTrim l = l := by
  unfold pyTrim
  rw [dropWhile_no_ws h,
      dropWhile_no_ws (fun c hc => h c (List.mem_reverse.mp hc)),
      List.reverse_reverse]

theorem pyIntOfChars_digits (cs : List Char) (hne : cs ≠ [])
    (h : ∀ c ∈ cs, c.isDigit = true) :
    pyIntOfChars cs = some ((digitsVal cs 0 : Nat) : Int) := by
  have htrim : pyTrim cs = cs := pyTrim_no_ws (fun c hc => not_ws_of_isDigit (h c hc))
  unfold pyIntOfChars
  rw [htrim]
  cases cs with
  | nil => exact absurd rfl hne
  | cons c rest =>
    have hc := h c (by simp)
    have hplus : ¬ (c = '+') := by intro he; subst he; exact absurd hc (by decide)
    have hminus : ¬ (c = '-') := by intro he; subst he; exact absurd hc (by decide)
    simp only [if_neg hplus, if_neg hminus]
    rw [pyDigits_all_digits (c :: rest) (by simp) h]
    rfl

/-- Python's `int` applied to the decimal representation recovers the
integer. -/
theorem pyIntOfChars_decRepr (v : Int) : pyIntOfChars (decRepr v) = some v := by
  unfold decRepr
  by_cases hv : v < 0
  · rw [if_pos hv]
    have hdig := natDigits_all_digits (-v).toNat
    have hne := natDigits_ne_nil (-v).toNat
    have htrim : pyTrim ('-' :: natDigits (-v).toNat) = '-' :: natDigits (-v).toNat := by
      apply pyTrim_no_ws
      intro c hc
      rcases List.mem_cons.mp hc with h | h
      · subst h; decide
      · exact not_ws_of_isDigit (hdig c h)
    unfold pyIntOfChars
    rw [htrim]
    simp only [if_neg (by decide : ¬ ('-' = '+')), if_pos (rfl : '-' = '-')]
    rw [pyDigits_all_digits _ hne hdig, digitsVal_natDigits]
    have : (((-v).toNat : Nat) : Int) = -v := Int.toNat_of_nonneg (by omega)
    simp [this]
  · rw [if_neg hv]
    rw [pyIntOfChars_digits _ (natDigits_ne_nil v.toNat) (natDigits_all_digits v.toNat),
        digitsVal_natDigits]
    have : ((v.toNat : Nat) : Int) = v := Int.toNat_of_nonneg (by omega)
    rw [this]

/-! ## Round trip (C5): splitting is inverse to joining -/

theorem splitOn_ne_nil : ∀ l : List Char, splitOn l ≠ [] := by
  intro l
  cases l with
  | nil => simp [splitOn]
  | cons c rest =>
    by_cases hc : c = ';'
    · simp [splitOn, hc]
    · simp only [splitOn, if_neg hc]
      cases h : splitOn rest with
      | nil => simp
      | cons t ts => simp

theorem splitOn_no_semi : ∀ (p : List Char), ';' ∉ p → splitOn p = [p] := by
  intro p
  induction p with
  | nil => intro _; rfl
  | cons c rest ih =>
    intro h
    have hc : ¬ (c = ';') := fun he => h (by simp [he])
    have hr : splitOn rest = [rest] := ih (fun hm => h (by simp [hm]))
    simp [splitOn, hc, hr]

theorem splitOn_append_semi : ∀ (p rest : List Char), ';' ∉ p →
    splitOn (p ++ ';' :: rest) = p :: splitOn rest := by
  intro p
  induction p with
  | nil => intro rest _; simp [splitOn]
  | cons c p2 ih =>
    intro rest h
    have hc : ¬ (c = ';') := fun he => h (by simp [he])
    have hr := ih rest (fun hm => h (by simp [hm]))
    simp only [List.cons_append, splitOn, if_neg hc, List.append_eq, hr]

theorem joinSemis_cons_cons (p q : List Char) (qs : List (List Char)) :
    joinSemis (p :: q :: qs) = p ++ ';' :: joinSemis (q :: qs) := rfl

theorem splitOn_joinSemis : ∀ (parts : List (List Char)), parts ≠ [] →
    (∀ p ∈ parts, ';' ∉ p) → splitOn (joinSemis parts) = parts := by
  intro parts
  induction parts with
  | nil => intro h; exact absurd rfl h
  | cons p ps ih =>
    intro _ h
    cases ps with
    | nil => simpa [joinSemis] using splitOn_no_semi p (h p (by simp))
    | cons q qs =>
      rw [joinSemis_cons_cons, splitOn_append_semi p _ (h p (by simp)),
          ih (by simp) (fun r hr => h r (by simp [hr]))]

theorem filter_nonempty_id : ∀ (parts : List (List Char)), (∀ p ∈ parts, p ≠ []) →
    parts.filter (fun p => !p.isEmpty) = parts := by
  intro parts
  induction parts with
  | nil => intro _; rfl
  | cons p ps ih =>
    intro h
    have hp : (!p.isEmpty) = true := by
      cases p with
      | nil => exact absurd rfl (h [] (by simp))
      | cons c r => rfl
    simp [List.filter_cons, hp, ih (fun q hq => h q (by simp [hq]))]

theorem mem_joinSemis : ∀ (parts : List (List Char)) (c : Char), c ∈ joinSemis parts →
    c = ';' ∨ ∃ p ∈ parts, c ∈ p := by
  intro parts
  induction parts with
  | nil => intro c hc; simp [joinSemis] at hc
  | cons p ps ih =>
    intro c hc
    cases ps with
    | nil =>
      right
      exact ⟨p, by simp, by simpa [joinSemis] using hc⟩
    | cons q qs =>
      rw [joinSemis_cons_cons] at hc
      rcases List.mem_append.mp hc with h | h
      · right; exact ⟨p, by simp, h⟩
      · rcases List.mem_cons.mp h with h | h
        · left; exact h
        · rcases ih c h with h | ⟨r, hr, hcr⟩
          · left; exact h
          · right; exact ⟨r, by simp [hr], hcr⟩

theorem joinSemis_ne_nil : ∀ (parts : List (List Char)), parts ≠ [] →
    (∀ p ∈ parts, p ≠ []) → joinSemis parts ≠ [] := by
  intro parts hne h
  cases parts with
  | nil => exact absurd rfl hne
  | cons p ps =>
    cases ps with
    | nil => simpa [joinSemis] using h p (by simp)
    | cons q qs =>
      rw [joinSemis_cons_cons]
      simp

/-! ## Round trip (C5): serialization facts and the main theorem -/

theorem decRepr_ne_nil (v : Int) : decRepr v ≠ [] := by
  unfold decRepr
  by_cases hv : v < 0 <;> simp [hv, natDigits_ne_nil]

theorem mem_decRepr (v : Int) (c : Char) (hc : c ∈ decRepr v) :
    c = '-' ∨ c.isDigit = true := by
  unfold decRepr at hc
  by_cases hv : v < 0
  · rw [if_pos hv] at hc
    rcases List.mem_cons.mp hc with h | h
    · left; exact h
    · right; exact natDigits_all_digits _ c h
  · rw [if_neg hv] at hc
    right
    exact natDigits_all_digits _ c hc

theorem decRepr_no_semi (v : Int) : ';' ∉ decRepr v := by
  intro h
  rcases mem_decRepr v ';' h with h1 | h1
  · exact absurd h1 (by decide)
  · exact absurd h1 (by decide)

theorem decRepr_no_lf (v : Int) : '\n' ∉ decRepr v := by
  intro h
  rcases mem_decRepr v '\n' h with h1 | h1
  · exact absurd h1 (by decide)
  · exact absurd h1 (by decide)

theorem rstripLF_id (s : List Char) (h : ∀ c ∈ s, ¬ (c = '\n')) : rstripLF s = s := by
  unfold rstripLF
  have hd : s.reverse.dropWhile (fun c => c = '\n') = s.reverse := by
    cases hsr : s.reverse with
    | nil => rfl
    | cons c r =>
      have hcs : c ∈ s := by
        have : c ∈ s.reverse := by rw [hsr]; simp
        exact List.mem_reverse.mp this
      simp [List.dropWhile_cons, h c hcs]
  rw [hd, List.reverse_reverse]

theorem intsOf_map_decRepr : ∀ vs : List Int, intsOf (vs.map decRepr) = some vs := by
  intro vs
  induction vs with
  | nil => rfl
  | cons v rest ih => simp [intsOf, pyIntOfChars_decRepr, ih]

theorem parse_serialize_general (vs : List Int) (hne : vs ≠ [])
    (hlen : vs.length = N_FIELDS) :
    parseLine (serializeVals vs) = ParseResult.ok (recordOfVals vs) := by
  have hpne : ∀ p ∈ vs.map decRepr, p ≠ [] := by
    intro p hp
    rcases List.mem_map.mp hp with ⟨v, _, rfl⟩
    exact decRepr_ne_nil v
  have hpsemi : ∀ p ∈ vs.map decRepr, ';' ∉ p := by
    intro p hp
    rcases List.mem_map.mp hp with ⟨v, _, rfl⟩
    exact decRepr_no_semi v
  have hpartsne : vs.map decRepr ≠ [] := by
    cases vs with
    | nil => exact absurd rfl hne
    | cons v rest => simp
  have hjoin_chars : ∀ c ∈ joinSemis (vs.map decRepr), ¬ (c = '\n') := by
    intro c hc he
    subst he
    rcases mem_joinSemis _ _ hc with h | ⟨p, hp, hcp⟩
    · exact absurd h (by decide)
    · rcases List.mem_map.mp hp with ⟨v, _, rfl⟩
      exact decRepr_no_lf v hcp
  have h1 : stripCR (joinSemis (vs.map decRepr) ++ ['\n'])
      = joinSemis (vs.map decRepr) ++ ['\n'] := by
    apply stripCR_of_last_ne
    rw [List.getLast?_concat]
    simp
  have h2 : rstripLF (joinSemis (vs.map decRepr) ++ ['\n'])
      = joinSemis (vs.map decRepr) := by
    rw [rstripLF_concat_lf, rstripLF_id _ hjoin_chars]
  have hsplit : splitTokens (joinSemis (vs.map decRepr)) = vs.map decRepr := by
    unfold splitTokens
    rw [splitOn_joinSemis _ hpartsne hpsemi, filter_nonempty_id _ hpne]
  unfold serializeVals parseLine
  rw [h1, h2]
  cases hj : joinSemis (vs.map decRepr) with
  | nil => exact absurd hj (joinSemis_ne_nil _ hpartsne hpne)
  | cons c rest =>
    rw [hj] at hsplit
    have hlen2 : (splitTokens (c :: rest)).length = N_FIELDS := by
      rw [hsplit, List.length_map, hlen]
    exact parseText_cons_some c rest vs hlen2
      (by rw [hsplit]; exact intsOf_map_decRepr vs)

/-- C5: parse round-trips serialization — for every 17-tuple of integers,
joining their decimal representations with the semicolon delimiter plus the
line terminator and parsing the result succeeds and yields the record whose
channel values, bound by schema position, are the original tuple. -/
theorem parse_round_trip
    (v1 v2 v3 v4 v5 v6 v7 v8 v9 v10 v11 v12 v13 v14 v15 v16 v17 : Int) :
    parseLine (serializeVals [v1, v2, v3, v4, v5, v6, v7, v8, v9, v10, v11,
        v12, v13, v14, v15, v16, v17])
      = ParseResult.ok ⟨v1, v2, v3, v4, v5, v6, v7, v8, v9, v10, v11, v12,
          v13, v14, v15, v16, v17⟩ := by
  exact parse_serialize_general
    [v1, v2, v3, v4, v5, v6, v7, v8, v9, v10, v11, v12, v13, v14, v15, v16, v17]
    (by simp) rfl
